import Mathlib

/-!
Verification of the pdf-renamer core (`rename_pdfs.py`) against its
specification.  The Python functions `sanitize_filename`,
`extract_pdf_title`, `find_available_filename` and the counting loop of
`rename_pdfs_in_folder` are embedded shallowly: strings are `String`
(lists of unicode characters), the filesystem directory is the finite set
of file names existing at the instant of resolution, PDF reading is a
data type recording what the external PyPDF2 collaborator would report,
and every Python exception path is explicit data.
-/

/-- Characters that Python's `str.strip()` and the regex class `\s`
    treat as whitespace (ASCII whitespace, the C1 separators, and the
    Unicode space characters). -/
def isPySpace (c : Char) : Bool :=
  c = ' ' || c = '\t' || c = '\n' || c = '\r' || c = '\x0b' || c = '\x0c' ||
  (0x1c ≤ c.toNat && c.toNat ≤ 0x1f) || c.toNat = 0x85 || c.toNat = 0xa0 ||
  c.toNat = 0x1680 || (0x2000 ≤ c.toNat && c.toNat ≤ 0x200a) ||
  c.toNat = 0x2028 || c.toNat = 0x2029 || c.toNat = 0x202f ||
  c.toNat = 0x205f || c.toNat = 0x3000

/-- The character class of the regex `[\\/*?:"<>|《》（）()‘’“”]` on line 25
    of `rename_pdfs.py`: the characters removed by `sanitize_filename`.
    Note that it contains the fullwidth parentheses `（` `）` (U+FF08,
    U+FF09) in addition to the ASCII ones. -/
def bannedChars : List Char :=
  ['\\', '/', '*', '?', ':', '"', '<', '>', '|',
   '《', '》', '（', '）', '(', ')', '‘', '’', '“', '”']

/-- Membership in the banned character class. -/
def isBanned (c : Char) : Bool := bannedChars.contains c

/-- Modelled from the spec: the banned set as the specification lists
    it, `\ / * ? : " < > | ( ) ‘ ’ “ ” 《 》` — written down only to be
    compared with `bannedChars`, the set the code actually removes. -/
def specBannedChars : List Char :=
  ['\\', '/', '*', '?', ':', '"', '<', '>', '|',
   '(', ')', '‘', '’', '“', '”', '《', '》']

/-- The character class of the regex `[\n\r]+` on line 29. -/
def isNlChar (c : Char) : Bool := c = '\n' || c = '\r'

/-- The character class of `rstrip('. ')` on line 35. -/
def isDotSpace (c : Char) : Bool := c = '.' || c = ' '

/-- Worker for `collapseRuns`: `inRun` records whether the previous
    character belonged to a run of characters satisfying `p`, so that a
    single space is emitted at the start of each maximal run and the
    rest of the run is dropped. -/
def collapseAux (p : Char → Bool) : Bool → List Char → List Char
  | _, [] => []
  | inRun, c :: cs =>
    if p c then
      if inRun then collapseAux p true cs
      else ' ' :: collapseAux p true cs
    else c :: collapseAux p false cs

/-- Embedding of `re.sub(p_class+, ' ', s)`: every maximal run of
    characters satisfying `p` is replaced by a single space.  Used for
    `re.sub(r'\s+', ' ', s)` (line 27) and `re.sub(r'[\n\r]+', ' ', s)`
    (line 29). -/
def collapseRuns (p : Char → Bool) (l : List Char) : List Char :=
  collapseAux p false l

/-- Embedding of Python `str.strip()` on a character list: drop leading
    and trailing whitespace. -/
def stripList (l : List Char) : List Char :=
  ((l.dropWhile isPySpace).reverse.dropWhile isPySpace).reverse

/-- Embedding of Python `str.rstrip(chars)`: drop trailing characters
    satisfying `p`. -/
def rstripList (p : Char → Bool) (l : List Char) : List Char :=
  (l.reverse.dropWhile p).reverse

/-- The character-removal step of `sanitize_filename` (line 25, before
    the `.strip()`): `re.sub(r'[\\/*?:"<>|《》（）()‘’“”]', '', title)`. -/
def removeIllegal (l : List Char) : List Char :=
  l.filter (fun c => !(isBanned c))

/-- Embedding of Python `str.strip()` on a `String`. -/
def pyStrip (s : String) : String := String.mk (stripList s.data)

/-- The first three transformations of `sanitize_filename` (lines 25-29
    of `rename_pdfs.py`): remove the banned characters and strip
    (line 25), collapse whitespace runs to one space (line 27), collapse
    newline runs to one space (line 29, a no-op after line 27). -/
def sanitizeCollapsed (l : List Char) : List Char :=
  collapseRuns isNlChar (collapseRuns isPySpace (stripList (removeIllegal l)))

/-- The length-limiting step of `sanitize_filename` (lines 31-33):
    `if len(clean_title) > max_len: clean_title = clean_title[:150].strip()`. -/
def sanitizeTruncated (l : List Char) : List Char :=
  if 150 < (sanitizeCollapsed l).length then stripList ((sanitizeCollapsed l).take 150)
  else sanitizeCollapsed l

/-- All list-level steps of `sanitize_filename` combined, ending with
    `rstrip('. ')` of line 35. -/
def sanitizeList (l : List Char) : List Char :=
  rstripList isDotSpace (sanitizeTruncated l)

/-- Embedding of `sanitize_filename` (lines 14-39): the transformation
    chain followed by the `if not clean_title: return "untitled"`
    fallback (lines 37-38). -/
def sanitize_filename (title : String) : String :=
  let r := sanitizeList title.data
  if r = [] then "untitled" else String.mk r

/-- Embedding of Python `text.split('\n')` (line 73): split at every
    newline character, keeping empty pieces, so that the result always
    has one more piece than the number of newlines. -/
def splitNl : List Char → List (List Char)
  | [] => [[]]
  | c :: cs =>
    if c = '\n' then [] :: splitNl cs
    else
      match splitNl cs with
      | [] => [[c]]
      | l :: ls => (c :: l) :: ls

/-- The code-point ranges of the characters Python's `str.isdigit()`
    accepts: those with Unicode property Numeric_Type=Decimal (the
    decimal digits of every script, fullwidth digits included) or
    Numeric_Type=Digit (superscripts, subscripts and other digit-type
    characters), per Unicode 14.0 as shipped with CPython. -/
def pyDigitRanges : List (Nat × Nat) :=
  [   (48, 57), (178, 179), (185, 185), (1632, 1641),
   (1776, 1785), (1984, 1993), (2406, 2415), (2534, 2543),
   (2662, 2671), (2790, 2799), (2918, 2927), (3046, 3055),
   (3174, 3183), (3302, 3311), (3430, 3439), (3558, 3567),
   (3664, 3673), (3792, 3801), (3872, 3881), (4160, 4169),
   (4240, 4249), (4969, 4977), (6112, 6121), (6160, 6169),
   (6470, 6479), (6608, 6618), (6784, 6793), (6800, 6809),
   (6992, 7001), (7088, 7097), (7232, 7241), (7248, 7257),
   (8304, 8304), (8308, 8313), (8320, 8329), (9312, 9320),
   (9332, 9340), (9352, 9360), (9450, 9450), (9461, 9469),
   (9471, 9471), (10102, 10110), (10112, 10120), (10122, 10130),
   (42528, 42537), (43216, 43225), (43264, 43273), (43472, 43481),
   (43504, 43513), (43600, 43609), (44016, 44025), (65296, 65305),
   (66720, 66729), (68160, 68163), (68912, 68921), (69216, 69224),
   (69714, 69722), (69734, 69743), (69872, 69881), (69942, 69951),
   (70096, 70105), (70384, 70393), (70736, 70745), (70864, 70873),
   (71248, 71257), (71360, 71369), (71472, 71481), (71904, 71913),
   (72016, 72025), (72784, 72793), (73040, 73049), (73120, 73129),
   (92768, 92777), (92864, 92873), (93008, 93017), (120782, 120831),
   (123200, 123209), (123632, 123641), (125264, 125273), (127232, 127242),
   (130032, 130041)]

/-- A character that Python's `str.isdigit()` counts as a digit. -/
def isPyDigitChar (c : Char) : Bool :=
  pyDigitRanges.any (fun r => r.1 ≤ c.toNat && c.toNat ≤ r.2)

/-- Embedding of Python `str.isdigit()` (used on line 77): true iff the
    string is non-empty and every character is a digit. -/
def pyIsdigit (s : String) : Bool := !s.data.isEmpty && s.data.all isPyDigitChar

/-- The line filter of line 73 of `rename_pdfs.py`:
    `[line.strip() for line in text.split('\n') if line.strip()]`. -/
def candidateLines (text : String) : List String :=
  (((splitNl text.data).map stripList).map String.mk).filter (fun l => l ≠ "")

/-- The heuristic of line 77: a line is a plausible title when its
    length is strictly between 5 and 100 and it is not all digits. -/
def goodLine (l : String) : Bool :=
  decide (5 < l.length) && decide (l.length < 100) && !(pyIsdigit l)

/-- What reading the first page's text reports: `extract_text()` either
    raises (caught on line 84) or returns a string (possibly empty). -/
inductive PageRead where
  | fail : PageRead
  | text : String → PageRead
deriving DecidableEq

/-- An opened PDF document as the PyPDF2 collaborator reports it:
    the optional metadata title (`none` covers both `meta` being `None`
    and the title field being absent) and the pages, each recorded with
    the outcome its text extraction would have. -/
structure PdfDoc where
  metaTitle : Option String
  pages : List PageRead
deriving DecidableEq

/-- A PDF file as seen by `extract_pdf_title`: opening or parsing it
    either raises (`FileNotFoundError`, `PdfReadError` or any other
    exception, lines 88-94) or yields a document. -/
inductive PdfFile where
  | readErr : PdfFile
  | doc : PdfDoc → PdfFile
deriving DecidableEq

/-- The metadata branch of `extract_pdf_title` (lines 58-65):
    `if meta and meta.title:` (the empty string is falsy), then
    `title = meta.title.strip()`, returned when non-empty. -/
def metaTitleResult (d : PdfDoc) : Option String :=
  match d.metaTitle with
  | none => none
  | some t =>
    if t ≠ "" then
      let title := pyStrip t
      if title ≠ "" then some title else none
    else none

/-- The first-page branch of `extract_pdf_title` (lines 67-86):
    when there is a first page whose text extraction succeeds with a
    truthy (non-empty) string, take the stripped non-empty lines, return
    the first plausible title line, else the first line; every other
    case yields `None`. -/
def firstPageResult (d : PdfDoc) : Option String :=
  match d.pages with
  | [] => none
  | p :: _ =>
    match p with
    | .fail => none
    | .text t =>
      if t ≠ "" then
        let lines := candidateLines t
        match lines.find? goodLine with
        | some l => some l
        | none => lines.head?
      else none

/-- Embedding of `extract_pdf_title` (lines 41-97): metadata first,
    then the first-page heuristic, `none` on every failure path. -/
def extract_pdf_title (f : PdfFile) : Option String :=
  match f with
  | .readErr => none
  | .doc d =>
    match metaTitleResult d with
    | some t => some t
    | none => firstPageResult d

/-- Decimal digit list of a natural number, most significant first;
    reference implementation used to reason about `Nat.repr`. -/
def natDigits (n : Nat) : List Char :=
  if h : n < 10 then [Nat.digitChar n]
  else natDigits (n / 10) ++ [Nat.digitChar (n % 10)]
decreasing_by
  exact Nat.div_lt_self (Nat.lt_of_lt_of_le (by decide) (Nat.le_of_not_lt h)) (by decide)

/-- Decimal value of a digit list, used to invert `natDigits`. -/
def digitsVal (l : List Char) : Nat :=
  l.foldl (fun a c => a * 10 + (c.toNat - 48)) 0

/-- The n-th file name probed by `find_available_filename` (lines
    111-117): `base + ext` first, then `base_1 + ext`, `base_2 + ext`,
    and so on (`f"{base_name}_{counter}{extension}"`). -/
def candidateName (base ext : String) (n : Nat) : String :=
  if n = 0 then base ++ ext else base ++ "_" ++ Nat.repr n ++ ext

/-- The `while new_path.exists()` loop of `find_available_filename`
    (lines 114-117), with the unbounded loop made total by an explicit
    fuel parameter: `cur` is the name about to be tested and `counter`
    the value used to build the next name on a collision.  `none` means
    the fuel ran out before a free name was found. -/
def findLoop (dir : Finset String) (base ext : String) :
    Nat → String → Nat → Option String
  | 0, _, _ => none
  | fuel + 1, cur, counter =>
    if cur ∈ dir then
      findLoop dir base ext fuel (base ++ "_" ++ Nat.repr counter ++ ext) (counter + 1)
    else some cur

/-- Embedding of `find_available_filename` (lines 99-118): start from
    `base + ext` with the counter at 1.  The directory is modelled as
    the finite set of file names existing at the instant of resolution,
    and `new_path.exists()` as membership in it. -/
def find_available_filename (dir : Finset String) (base ext : String)
    (fuel : Nat) : Option String :=
  findLoop dir base ext fuel (base ++ ext) 1

/-- The fate of one PDF file in the loop of `rename_pdfs_in_folder`
    (lines 136-169), one constructor per branch of the loop body. -/
inductive Outcome where
  | renamed : Outcome
  | renameFailed : Outcome
  | noTitle : Outcome
  | skipUntitled : Outcome
  | skipEmpty : Outcome
  | skipNoChange : Outcome
deriving DecidableEq

/-- One processed PDF file: its current stem and extension, the PDF
    reading outcomes, and whether the OS-level rename would succeed
    (the external effect of line 158). -/
structure FileEntry where
  stem : String
  suffix : String
  pdf : PdfFile
  renameOk : Bool
deriving DecidableEq

/-- The branch of the loop body of `rename_pdfs_in_folder` taken for
    one file: `if title:` (lines 140, 167-169, the empty string being
    falsy), the `untitled` no-progress skip (lines 142-144), the
    empty-title skip (lines 146-148), the unchanged-name skip (lines
    151-153), and the rename attempt (lines 157-166). -/
def fileOutcome (e : FileEntry) : Outcome :=
  match extract_pdf_title e.pdf with
  | none => .noTitle
  | some title =>
    if title = "" then .noTitle
    else
      let clean := sanitize_filename title
      if clean = "untitled" ∧ e.stem = "untitled" then .skipUntitled
      else if clean = "" then .skipEmpty
      else if clean = e.stem then .skipNoChange
      else if e.renameOk then .renamed else .renameFailed

/-- The two counters of `rename_pdfs_in_folder` (lines 133-134,
    160, 163, 166, 169): `rename_count` is incremented exactly on a
    successful rename, `fail_count` exactly on a failed rename attempt
    or on title-extraction failure.  The three `continue` skips touch
    neither counter. -/
def countStep (acc : Nat × Nat) (e : FileEntry) : Nat × Nat :=
  match fileOutcome e with
  | .renamed => (acc.1 + 1, acc.2)
  | .renameFailed => (acc.1, acc.2 + 1)
  | .noTitle => (acc.1, acc.2 + 1)
  | _ => acc

def renameCounts (files : List FileEntry) : Nat × Nat :=
  files.foldl countStep (0, 0)

/-- The shape invariant of (the list stage of) `sanitize_filename`
    output: no banned character, the only whitespace character is the
    plain space and spaces are isolated (no two adjacent), the list
    neither starts with whitespace nor ends with a dot or a space, and
    it has at most 150 characters. -/
def Sane (l : List Char) : Prop :=
  (∀ c ∈ l, isBanned c = false) ∧
  (∀ c ∈ l, isPySpace c = true → c = ' ') ∧
  l.Chain' (fun a b => ¬(a = ' ' ∧ b = ' ')) ∧
  (∀ c ∈ l.head?, isPySpace c = false) ∧
  (∀ c ∈ l.getLast?, isDotSpace c = false) ∧
  l.length ≤ 150

/-! ### Generic lemmas about the list primitives -/

theorem head?_of_listPre {l m : List Char} (h : l <+: m) {a : Char}
    (ha : a ∈ l.head?) : a ∈ m.head? := by
  obtain ⟨t, rfl⟩ := h
  cases l <;> simp_all

theorem dropWhile_eq_self_of_head {p : Char → Bool} {l : List Char}
    (h : ∀ a ∈ l.head?, p a = false) : l.dropWhile p = l := by
  cases l with
  | nil => rfl
  | cons c cs => simp_all [List.dropWhile_cons]

theorem head?_dropWhile_false (p : Char → Bool) (l : List Char) :
    ∀ a ∈ (l.dropWhile p).head?, p a = false := by
  intro a ha
  have h := List.head?_dropWhile_not p l
  rw [Option.mem_def] at ha
  rw [ha] at h
  exact h

theorem rstripList_pre (p : Char → Bool) (l : List Char) :
    rstripList p l <+: l :=
  List.reverse_suffix.mp (by simpa [rstripList] using List.dropWhile_suffix (l := l.reverse) p)

theorem getLast?_rstripList (p : Char → Bool) (l : List Char) :
    ∀ a ∈ (rstripList p l).getLast?, p a = false := by
  intro a ha
  apply head?_dropWhile_false p l.reverse
  rwa [rstripList, List.getLast?_reverse] at ha

theorem rstripList_eq_self {p : Char → Bool} {l : List Char}
    (h : ∀ a ∈ l.getLast?, p a = false) : rstripList p l = l := by
  rw [rstripList, dropWhile_eq_self_of_head, List.reverse_reverse]
  intro a ha
  exact h a (by rwa [List.head?_reverse] at ha)

theorem stripList_eq_rstrip (l : List Char) :
    stripList l = rstripList isPySpace (l.dropWhile isPySpace) := rfl

theorem stripList_sublist (l : List Char) :
    List.Sublist (stripList l) l := by
  rw [stripList_eq_rstrip]
  exact ((rstripList_pre _ _).sublist).trans (List.dropWhile_suffix _).sublist

theorem stripList_inf (l : List Char) : stripList l <:+: l := by
  rw [stripList_eq_rstrip]
  exact ( List.IsInfix.trans ( List.IsPrefix.isInfix (rstripList_pre _ _))
    ( List.IsSuffix.isInfix (List.dropWhile_suffix _)))

theorem head?_stripList (l : List Char) :
    ∀ a ∈ (stripList l).head?, isPySpace a = false := by
  intro a ha
  rw [stripList_eq_rstrip] at ha
  exact head?_dropWhile_false _ _ a (head?_of_listPre (rstripList_pre _ _) ha)

theorem getLast?_stripList (l : List Char) :
    ∀ a ∈ (stripList l).getLast?, isPySpace a = false := by
  rw [stripList_eq_rstrip]
  exact getLast?_rstripList _ _

theorem stripList_eq_self {l : List Char}
    (h1 : ∀ a ∈ l.head?, isPySpace a = false)
    (h2 : ∀ a ∈ l.getLast?, isPySpace a = false) : stripList l = l := by
  rw [stripList_eq_rstrip, dropWhile_eq_self_of_head h1, rstripList_eq_self h2]

theorem stripList_idem (l : List Char) :
    stripList (stripList l) = stripList l :=
  stripList_eq_self (head?_stripList l) (getLast?_stripList l)

/-! ### Lemmas about `collapseAux` -/

theorem collapseAux_cons_pt {p : Char → Bool} {d : Char} (hd : p d = true)
    (ds : List Char) : collapseAux p true (d :: ds) = collapseAux p true ds := by
  simp [collapseAux, hd]

theorem collapseAux_cons_pf {p : Char → Bool} {d : Char} (hd : p d = true)
    (ds : List Char) :
    collapseAux p false (d :: ds) = ' ' :: collapseAux p true ds := by
  simp [collapseAux, hd]

theorem collapseAux_cons_neg {p : Char → Bool} {d : Char} (hd : p d = false)
    (b : Bool) (ds : List Char) :
    collapseAux p b (d :: ds) = d :: collapseAux p false ds := by
  simp [collapseAux, hd]

theorem mem_collapseAux {p : Char → Bool} :
    ∀ (b : Bool) (l : List Char), ∀ c ∈ collapseAux p b l,
      c = ' ' ∨ (c ∈ l ∧ p c = false) := by
  intro b l
  induction l generalizing b with
  | nil => simp [collapseAux]
  | cons d ds ih =>
    intro c hc
    by_cases hd : p d
    · cases b with
      | true =>
        rw [collapseAux_cons_pt hd] at hc
        rcases ih true c hc with h | ⟨h1, h2⟩
        · exact Or.inl h
        · exact Or.inr ⟨List.mem_cons_of_mem _ h1, h2⟩
      | false =>
        rw [collapseAux_cons_pf hd] at hc
        rcases List.mem_cons.mp hc with rfl | hc2
        · exact Or.inl rfl
        · rcases ih true c hc2 with h | ⟨h1, h2⟩
          · exact Or.inl h
          · exact Or.inr ⟨List.mem_cons_of_mem _ h1, h2⟩
    · rw [collapseAux_cons_neg (by simpa using hd)] at hc
      rcases List.mem_cons.mp hc with rfl | hc2
      · exact Or.inr ⟨List.mem_cons_self _ _, by simpa using hd⟩
      · rcases ih false c hc2 with h | ⟨h1, h2⟩
        · exact Or.inl h
        · exact Or.inr ⟨List.mem_cons_of_mem _ h1, h2⟩

theorem head?_collapseAux_true {p : Char → Bool} :
    ∀ l : List Char, ∀ a ∈ (collapseAux p true l).head?, p a = false := by
  intro l
  induction l with
  | nil => simp [collapseAux]
  | cons d ds ih =>
    intro a ha
    by_cases hd : p d
    · rw [collapseAux_cons_pt hd] at ha
      exact ih a ha
    · rw [collapseAux_cons_neg (by simpa using hd)] at ha
      simp only [List.head?_cons, Option.mem_def, Option.some.injEq] at ha
      subst ha
      simpa using hd

theorem chain'_collapseAux {p : Char → Bool} (hp : p ' ' = true) :
    ∀ (b : Bool) (l : List Char),
      (collapseAux p b l).Chain' (fun a b' => ¬(a = ' ' ∧ b' = ' ')) := by
  intro b l
  induction l generalizing b with
  | nil => simp [collapseAux]
  | cons d ds ih =>
    by_cases hd : p d
    · cases b with
      | true =>
        rw [collapseAux_cons_pt hd]
        exact ih true
      | false =>
        rw [collapseAux_cons_pf hd, List.chain'_cons']
        refine ⟨?_, ih true⟩
        intro x hx h
        have hfx := head?_collapseAux_true (p := p) ds x hx
        rw [h.2, hp] at hfx
        exact Bool.noConfusion hfx
    · rw [collapseAux_cons_neg (by simpa using hd), List.chain'_cons']
      refine ⟨?_, ih false⟩
      intro x hx h
      rw [h.1] at hd
      exact hd hp

theorem collapseAux_eq_self {p : Char → Bool} (hp : p ' ' = true) :
    ∀ l : List Char,
      (∀ c ∈ l, p c = true → c = ' ') →
      l.Chain' (fun a b => ¬(a = ' ' ∧ b = ' ')) →
      collapseAux p false l = l ∧
        ((∀ a ∈ l.head?, p a = false) → collapseAux p true l = l) := by
  intro l
  induction l with
  | nil => intro _ _; exact ⟨rfl, fun _ => rfl⟩
  | cons d ds ih =>
    intro hws hch
    have hws' : ∀ c ∈ ds, p c = true → c = ' ' :=
      fun c hc => hws c (List.mem_cons_of_mem _ hc)
    rw [List.chain'_cons'] at hch
    obtain ⟨hhead, hch'⟩ := hch
    obtain ⟨ihf, iht⟩ := ih hws' hch'
    by_cases hd : p d
    · have hd' : d = ' ' := hws d (List.mem_cons_self _ _) hd
      subst hd'
      have hnot : ∀ a ∈ ds.head?, p a = false := by
        intro a ha
        have hne : a ≠ ' ' := fun he => hhead a ha ⟨rfl, he⟩
        by_contra hcon
        rw [Bool.not_eq_false] at hcon
        exact hne (hws' a (List.mem_of_mem_head? ha) hcon)
      constructor
      · rw [collapseAux_cons_pf hp, iht hnot]
      · intro hfalse
        have hcontra := hfalse ' ' (by simp)
        rw [hp] at hcontra
        exact Bool.noConfusion hcontra
    · constructor
      · rw [collapseAux_cons_neg (by simpa using hd), ihf]
      · intro _
        rw [collapseAux_cons_neg (by simpa using hd), ihf]

theorem collapseAux_eq_self_of_none {p : Char → Bool} :
    ∀ (b : Bool) (l : List Char), (∀ c ∈ l, p c = false) →
      collapseAux p b l = l := by
  intro b l
  induction l generalizing b with
  | nil => intro _; rfl
  | cons d ds ih =>
    intro h
    have hd : p d = false := h d (List.mem_cons_self _ _)
    rw [collapseAux_cons_neg hd,
      ih false (fun c hc => h c (List.mem_cons_of_mem _ hc))]

theorem head?_collapseAux_false {p : Char → Bool} {l : List Char}
    (h : ∀ a ∈ l.head?, p a = false) :
    (collapseAux p false l).head? = l.head? := by
  cases l with
  | nil => rfl
  | cons c cs =>
    have hc : p c = false := h c (by simp)
    rw [collapseAux_cons_neg hc]
    simp

/-! ### Properties of the sanitizing chain -/

theorem isPySpace_of_isNlChar {c : Char} (h : isNlChar c = true) :
    isPySpace c = true := by
  simp only [isNlChar, Bool.or_eq_true, decide_eq_true_eq] at h
  rcases h with rfl | rfl <;> decide

theorem mem_of_getLast? {l : List Char} {a : Char} (h : a ∈ l.getLast?) :
    a ∈ l := by
  rw [← List.head?_reverse] at h
  exact (List.mem_reverse).mp (List.mem_of_mem_head? h)

theorem sanitizeCollapsed_eq (l : List Char) :
    sanitizeCollapsed l = collapseRuns isPySpace (stripList (removeIllegal l)) := by
  show collapseAux isNlChar false _ = _
  apply collapseAux_eq_self_of_none
  intro c hc
  rcases mem_collapseAux false _ c hc with rfl | ⟨_, hws⟩
  · decide
  · by_contra hnl
    rw [Bool.not_eq_false] at hnl
    rw [isPySpace_of_isNlChar hnl] at hws
    exact Bool.noConfusion hws

theorem mem_sanitizeCollapsed {l : List Char} {c : Char}
    (hc : c ∈ sanitizeCollapsed l) :
    isBanned c = false ∧ (isPySpace c = true → c = ' ') := by
  rw [sanitizeCollapsed_eq] at hc
  rcases mem_collapseAux false _ c hc with rfl | ⟨hmem, hws⟩
  · exact ⟨by decide, fun _ => rfl⟩
  · constructor
    · have hmem2 : c ∈ removeIllegal l := (stripList_sublist _).mem hmem
      simp only [removeIllegal, List.mem_filter, Bool.not_eq_true'] at hmem2
      exact hmem2.2
    · intro h
      rw [h] at hws
      exact Bool.noConfusion hws

theorem chain'_sanitizeCollapsed (l : List Char) :
    (sanitizeCollapsed l).Chain' (fun a b => ¬(a = ' ' ∧ b = ' ')) := by
  rw [sanitizeCollapsed_eq]
  exact chain'_collapseAux (by decide) false _

theorem head?_sanitizeCollapsed (l : List Char) :
    ∀ a ∈ (sanitizeCollapsed l).head?, isPySpace a = false := by
  intro a ha
  rw [sanitizeCollapsed_eq,
    show collapseRuns isPySpace (stripList (removeIllegal l)) =
      collapseAux isPySpace false (stripList (removeIllegal l)) from rfl,
    head?_collapseAux_false (head?_stripList _)] at ha
  exact head?_stripList _ a ha

theorem mem_sanitizeTruncated {l : List Char} {c : Char}
    (hc : c ∈ sanitizeTruncated l) : c ∈ sanitizeCollapsed l := by
  unfold sanitizeTruncated at hc
  split at hc
  · exact List.Sublist.mem ((stripList_sublist _).mem hc)
      (List.IsPrefix.sublist ( List.take_prefix _ _))
  · exact hc

theorem chain'_sanitizeTruncated (l : List Char) :
    (sanitizeTruncated l).Chain' (fun a b => ¬(a = ' ' ∧ b = ' ')) := by
  unfold sanitizeTruncated
  split
  · exact List.Chain'.infix (chain'_sanitizeCollapsed l)
      ( List.IsInfix.trans (stripList_inf _)
        ( List.IsPrefix.isInfix ( List.take_prefix _ _)))
  · exact chain'_sanitizeCollapsed l

theorem head?_sanitizeTruncated (l : List Char) :
    ∀ a ∈ (sanitizeTruncated l).head?, isPySpace a = false := by
  intro a ha
  unfold sanitizeTruncated at ha
  split at ha
  · exact head?_stripList _ a ha
  · exact head?_sanitizeCollapsed l a ha

theorem length_sanitizeTruncated (l : List Char) :
    (sanitizeTruncated l).length ≤ 150 := by
  unfold sanitizeTruncated
  split
  · refine le_trans (stripList_sublist _).length_le ?_
    simpa using Nat.min_le_left 150 _
  · omega

theorem sane_sanitizeList (l : List Char) : Sane (sanitizeList l) := by
  have hpre : rstripList isDotSpace (sanitizeTruncated l) <+: sanitizeTruncated l :=
    rstripList_pre _ _
  refine ⟨?_, ?_, ?_, ?_, ?_, ?_⟩
  · intro c hc
    exact (mem_sanitizeCollapsed (mem_sanitizeTruncated (hpre.sublist.mem hc))).1
  · intro c hc
    exact (mem_sanitizeCollapsed (mem_sanitizeTruncated (hpre.sublist.mem hc))).2
  · exact List.Chain'.prefix (chain'_sanitizeTruncated l) hpre
  · intro a ha
    exact head?_sanitizeTruncated l a (head?_of_listPre hpre ha)
  · exact getLast?_rstripList _ _
  · exact le_trans hpre.sublist.length_le (length_sanitizeTruncated l)

theorem sanitizeList_eq_self {l : List Char} (h : Sane l) : sanitizeList l = l := by
  obtain ⟨hban, hws, hch, hhd, hlast, hlen⟩ := h
  have hlast_ws : ∀ a ∈ l.getLast?, isPySpace a = false := by
    intro a ha
    by_contra hcon
    rw [Bool.not_eq_false] at hcon
    have ha' : a = ' ' := hws a (mem_of_getLast? ha) hcon
    have := hlast a ha
    rw [ha'] at this
    exact Bool.noConfusion this
  have h1 : removeIllegal l = l :=
    List.filter_eq_self.mpr (fun c hc => by simp [hban c hc])
  have h2 : stripList l = l := stripList_eq_self hhd hlast_ws
  have h3 : collapseRuns isPySpace l = l :=
    (collapseAux_eq_self (by decide) l hws hch).1
  have h4 : sanitizeCollapsed l = l := by
    rw [sanitizeCollapsed_eq, h1, h2, h3]
  have h5 : sanitizeTruncated l = l := by
    unfold sanitizeTruncated
    rw [h4, if_neg (by omega)]
  show rstripList isDotSpace (sanitizeTruncated l) = l
  rw [h5, rstripList_eq_self hlast]

/-! ### Claims about `sanitize_filename` -/

theorem sanitize_filename_cases (x : String) :
    sanitize_filename x =
      if sanitizeList x.data = [] then "untitled"
      else String.mk (sanitizeList x.data) := rfl

/-- Claim C1: for every input string, `sanitize_filename` returns a
    string with no banned character, of length at most 150, not ending
    in a dot or in a whitespace character, and non-empty; when the
    transformation chain yields the empty string the literal placeholder
    "untitled" is returned. -/
theorem sanitize_filename_safe (x : String) :
    (∀ c ∈ (sanitize_filename x).data, isBanned c = false) ∧
    (sanitize_filename x).length ≤ 150 ∧
    (∀ c ∈ (sanitize_filename x).data.getLast?,
      isDotSpace c = false ∧ isPySpace c = false) ∧
    sanitize_filename x ≠ "" ∧
    (sanitizeList x.data = [] → sanitize_filename x = "untitled") := by
  rw [sanitize_filename_cases]
  by_cases hempty : sanitizeList x.data = []
  · rw [if_pos hempty]
    refine ⟨by decide, by decide, by decide, by decide, fun _ => rfl⟩
  · rw [if_neg hempty]
    obtain ⟨hban, hws, _, _, hlast, hlen⟩ := sane_sanitizeList x.data
    refine ⟨hban, hlen, ?_, ?_, fun h => absurd h hempty⟩
    · intro c hc
      refine ⟨hlast c hc, ?_⟩
      by_contra hcon
      rw [Bool.not_eq_false] at hcon
      have hsp : c = ' ' := hws c (mem_of_getLast? hc) hcon
      have := hlast c hc
      rw [hsp] at this
      exact Bool.noConfusion this
    · intro hstr
      exact hempty (congrArg String.data hstr)

/-- Claim C1 witness: the guarantees at the concrete inputs `""` and
    `"a"`. -/
theorem sanitize_filename_safe_witness :
    sanitize_filename "" = "untitled" ∧ sanitize_filename "a" ≠ "" :=
  ⟨(sanitize_filename_safe "").2.2.2.2 (by decide),
   (sanitize_filename_safe "a").2.2.2.1⟩

/-- Claim C5: `sanitize_filename` is idempotent. -/
theorem sanitize_filename_idem (x : String) :
    sanitize_filename (sanitize_filename x) = sanitize_filename x := by
  by_cases hempty : sanitizeList x.data = []
  · rw [sanitize_filename_cases x, if_pos hempty]
    decide
  · rw [sanitize_filename_cases x, if_neg hempty,
      sanitize_filename_cases (String.mk (sanitizeList x.data))]
    have hdata : (String.mk (sanitizeList x.data)).data = sanitizeList x.data := rfl
    rw [hdata, sanitizeList_eq_self (sane_sanitizeList x.data), if_neg hempty]

/-- Claim C7 counterexample: the code's removal step also deletes the
    fullwidth parenthesis `（`, a non-whitespace character that is not in
    the specification's banned set, so not every character outside the
    spec set is preserved. -/
theorem removeIllegal_spec_counterexample :
    removeIllegal ['（'] = [] ∧ '（' ∉ specBannedChars ∧ isPySpace '（' = false := by
  decide

/-- Claim C7 (amended): the removal step removes exactly the code's
    banned set `bannedChars` — which is the spec's set plus the
    fullwidth parentheses `（` `）`: no banned character survives, every
    non-banned character of the input is kept, the output is a
    subsequence of the input (order preserved), and the spec's set is
    contained in the code's. -/
theorem removeIllegal_exact (l : List Char) :
    (∀ c ∈ removeIllegal l, c ∉ bannedChars) ∧
    (∀ c ∈ l, c ∉ bannedChars → c ∈ removeIllegal l) ∧
    List.Sublist (removeIllegal l) l ∧
    (∀ c ∈ specBannedChars, c ∈ bannedChars) := by
  refine ⟨?_, ?_, List.filter_sublist _, by decide⟩
  · intro c hc
    simp only [removeIllegal, List.mem_filter, Bool.not_eq_true', isBanned] at hc
    intro hmem
    have : bannedChars.contains c = true := by simpa using hmem
    rw [hc.2] at this
    exact Bool.noConfusion this
  · intro c hc hnc
    simp only [removeIllegal, List.mem_filter, Bool.not_eq_true', isBanned]
    exact ⟨hc, by simpa using hnc⟩

/-- Claim C7 witness: at the concrete input `['a', '（']` the non-banned
    character 'a' is kept by the removal step. -/
theorem removeIllegal_exact_witness : 'a' ∈ removeIllegal ['a', '（'] :=
  (removeIllegal_exact ['a', '（']).2.1 'a' (by decide) (by decide)

/-! ### Claims about `extract_pdf_title` -/

theorem pyStrip_idem (s : String) : pyStrip (pyStrip s) = pyStrip s := by
  show String.mk (stripList (stripList s.data)) = String.mk (stripList s.data)
  rw [stripList_idem]

theorem mem_candidateLines {txt t : String} (h : t ∈ candidateLines txt) :
    t ≠ "" ∧ pyStrip t = t := by
  unfold candidateLines at h
  rw [List.mem_filter] at h
  obtain ⟨hmem, hne⟩ := h
  rw [List.mem_map] at hmem
  obtain ⟨m, hm, rfl⟩ := hmem
  rw [List.mem_map] at hm
  obtain ⟨x, _, rfl⟩ := hm
  refine ⟨by simpa using hne, ?_⟩
  show String.mk (stripList (stripList x)) = String.mk (stripList x)
  rw [stripList_idem]

/-- Claim C4: when the metadata title field is present and non-empty
    after whitespace trimming, `extract_pdf_title` returns the trimmed
    metadata title, whatever the pages contain (the page-text path is
    never consulted). -/
theorem extract_metadata_first (d : PdfDoc) (t : String)
    (hmeta : d.metaTitle = some t) (hne : pyStrip t ≠ "") :
    extract_pdf_title (.doc d) = some (pyStrip t) := by
  have ht : t ≠ "" := by
    intro h
    rw [h] at hne
    exact hne rfl
  simp [extract_pdf_title, metaTitleResult, hmeta, ht, hne]

/-- Claim C4 witness: metadata title `"  My Paper  "` yields
    `"My Paper"` even though the first page would fail to read. -/
theorem extract_metadata_first_witness :
    extract_pdf_title (.doc ⟨some "  My Paper  ", [.fail]⟩) = some "My Paper" := by
  have h := extract_metadata_first ⟨some "  My Paper  ", [.fail]⟩ "  My Paper  "
    rfl (by decide)
  rw [h]
  decide

/-- Claim C3: with no usable metadata title and a first page yielding
    non-empty text, `extract_pdf_title` returns the first stripped
    non-empty line whose length is strictly between 5 and 100 and which
    is not all digits; if no such line exists but some non-empty line
    does, it returns the first non-empty line.  In particular the text
    `"3\nIntroduction to Widgets\n..."` gives
    `"Introduction to Widgets"`. -/
theorem extract_heuristic (d : PdfDoc) (txt : String) (rest : List PageRead)
    (hmeta : metaTitleResult d = none)
    (hpage : d.pages = PageRead.text txt :: rest)
    (htxt : txt ≠ "") :
    (∀ l, (candidateLines txt).find? goodLine = some l →
        extract_pdf_title (.doc d) = some l) ∧
    ((candidateLines txt).find? goodLine = none →
        (candidateLines txt) ≠ [] →
        extract_pdf_title (.doc d) = (candidateLines txt).head?) ∧
    extract_pdf_title (.doc ⟨none, [.text "3\nIntroduction to Widgets\n..."]⟩) =
      some "Introduction to Widgets" := by
  have hred : extract_pdf_title (.doc d) =
      (match (candidateLines txt).find? goodLine with
       | some l => some l
       | none => (candidateLines txt).head?) := by
    simp [extract_pdf_title, hmeta, firstPageResult, hpage, htxt]
  refine ⟨?_, ?_, by decide⟩
  · intro l hl
    rw [hred, hl]
  · intro hnone _
    rw [hred, hnone]

/-- Claim C3 witness: the concrete first-page text
    `"3\nIntroduction to Widgets\n..."` with no metadata, and a page
    whose first line is made of fullwidth digits `１２３４５６` — also
    skipped, because Python's `isdigit` accepts Unicode digits. -/
theorem extract_heuristic_witness :
    extract_pdf_title
      (.doc ⟨none, [.text "3\nIntroduction to Widgets\n..."]⟩) =
      some "Introduction to Widgets" ∧
    extract_pdf_title
      (.doc ⟨none, [.text "１２３４５６\nReal Title Here"]⟩) =
      some "Real Title Here" :=
  ⟨(extract_heuristic ⟨none, [.text "3\nIntroduction to Widgets\n..."]⟩
      "3\nIntroduction to Widgets\n..." [] rfl rfl (by decide)).1
      "Introduction to Widgets" (by decide),
   (extract_heuristic ⟨none, [.text "１２３４５６\nReal Title Here"]⟩
      "１２３４５６\nReal Title Here" [] rfl rfl (by decide)).1
      "Real Title Here" (by decide)⟩

/-- Claim C10: whenever `extract_pdf_title` returns a title, that title
    is non-empty and carries no leading or trailing whitespace. -/
theorem extract_stripped_nonempty (f : PdfFile) (t : String)
    (h : extract_pdf_title f = some t) : t ≠ "" ∧ pyStrip t = t := by
  cases f with
  | readErr => exact Option.noConfusion h
  | doc d =>
    have h1 : (match metaTitleResult d with
               | some t0 => some t0
               | none => firstPageResult d) = some t := h
    cases hm : metaTitleResult d with
    | some t0 =>
      rw [hm] at h1
      have ht : t0 = t := by simpa using h1
      subst ht
      cases hmt : d.metaTitle with
      | none =>
        rw [show metaTitleResult d = none by
          unfold metaTitleResult; rw [hmt]] at hm
        exact Option.noConfusion hm
      | some s =>
        have hm2 : (if s ≠ "" then
            (if pyStrip s ≠ "" then some (pyStrip s) else none) else none) =
            some t0 := by
          rw [← hm]
          unfold metaTitleResult
          rw [hmt]
        by_cases hs : s = ""
        · rw [if_neg (by simp [hs])] at hm2
          exact Option.noConfusion hm2
        · rw [if_pos hs] at hm2
          by_cases hps : pyStrip s = ""
          · rw [if_neg (by simp [hps])] at hm2
            exact Option.noConfusion hm2
          · rw [if_pos hps] at hm2
            have heq : pyStrip s = t0 := by simpa using hm2
            rw [← heq]
            exact ⟨hps, pyStrip_idem s⟩
    | none =>
      rw [hm] at h1
      have h3 : (match d.pages with
                 | [] => (none : Option String)
                 | p :: _ =>
                   match p with
                   | PageRead.fail => none
                   | PageRead.text txt =>
                     if txt ≠ "" then
                       (match (candidateLines txt).find? goodLine with
                        | some l => some l
                        | none => (candidateLines txt).head?)
                     else none) = some t := h1
      cases hp : d.pages with
      | nil =>
        rw [hp] at h3
        exact Option.noConfusion h3
      | cons p rest =>
        rw [hp] at h3
        cases p with
        | fail => exact Option.noConfusion h3
        | text txt =>
          have h4 : (if txt ≠ "" then
              (match (candidateLines txt).find? goodLine with
               | some l => some l
               | none => (candidateLines txt).head?) else none) = some t := h3
          by_cases htxt : txt = ""
          · rw [if_neg (by simp [htxt])] at h4
            exact Option.noConfusion h4
          · rw [if_pos htxt] at h4
            cases hf : (candidateLines txt).find? goodLine with
            | some l =>
              rw [hf] at h4
              have hl : l = t := by simpa using h4
              subst hl
              exact mem_candidateLines (List.mem_of_find?_eq_some hf)
            | none =>
              rw [hf] at h4
              have hmem : t ∈ (candidateLines txt).head? := h4
              exact mem_candidateLines (List.mem_of_mem_head? hmem)

/-- Claim C10 witness: the metadata path at a concrete document. -/
theorem extract_stripped_nonempty_witness :
    "My Paper" ≠ "" ∧ pyStrip "My Paper" = "My Paper" :=
  extract_stripped_nonempty (.doc ⟨some "  My Paper  ", []⟩) "My Paper" (by decide)

/-- Claim C8 counterexample: a document whose first-page text extraction
    would fail (and likewise one yielding no text at all) but which has
    a usable metadata title makes `extract_pdf_title` return that title,
    not nothing. -/
theorem extract_failure_counterexample :
    (PdfDoc.mk (some "My Paper") [PageRead.fail]).pages.head? =
      some PageRead.fail ∧
    extract_pdf_title (.doc (PdfDoc.mk (some "My Paper") [PageRead.fail])) =
      some "My Paper" := by
  decide

/-- Claim C8 (amended): for every document with no usable metadata
    title — including every document that cannot be opened or parsed —
    if reading fails, or there is no page, or the first page's text
    extraction fails, or it yields the empty text, then
    `extract_pdf_title` returns `none`; no exception reaches the caller
    (the embedding is a total function into `Option`). -/
theorem extract_failure_none (f : PdfFile)
    (h : f = .readErr ∨ ∃ d, f = .doc d ∧ metaTitleResult d = none ∧
      (d.pages = [] ∨ d.pages.head? = some PageRead.fail ∨
       d.pages.head? = some (PageRead.text ""))) :
    extract_pdf_title f = none := by
  rcases h with rfl | ⟨d, rfl, hmeta, hcase⟩
  · rfl
  · have h1 : extract_pdf_title (.doc d) =
        (match metaTitleResult d with
         | some t0 => some t0
         | none => firstPageResult d) := rfl
    rw [h1, hmeta]
    have h2 : firstPageResult d =
        (match d.pages with
         | [] => (none : Option String)
         | p :: _ =>
           match p with
           | PageRead.fail => none
           | PageRead.text txt =>
             if txt ≠ "" then
               (match (candidateLines txt).find? goodLine with
                | some l => some l
                | none => (candidateLines txt).head?)
             else none) := rfl
    simp only
    rw [h2]
    cases hp : d.pages with
    | nil => rfl
    | cons p rest =>
      rw [hp] at hcase
      rcases hcase with hnil | hfail | hempty
      · exact List.noConfusion hnil
      · have hpfail : p = PageRead.fail := by simpa using hfail
        rw [hpfail]
      · have hptext : p = PageRead.text "" := by simpa using hempty
        rw [hptext]
        simp

/-- Claim C8 witness: an unreadable file and an empty-page document. -/
theorem extract_failure_none_witness :
    extract_pdf_title .readErr = none ∧
    extract_pdf_title (.doc ⟨none, []⟩) = none :=
  ⟨extract_failure_none .readErr (Or.inl rfl),
   extract_failure_none (.doc ⟨none, []⟩)
     (Or.inr ⟨⟨none, []⟩, rfl, rfl, Or.inl rfl⟩)⟩

/-! ### Claims about `find_available_filename` -/

theorem digitsVal_append (xs : List Char) (c : Char) :
    digitsVal (xs ++ [c]) = digitsVal xs * 10 + (c.toNat - 48) := by
  unfold digitsVal
  rw [List.foldl_append]
  rfl

theorem digitChar_toNat : ∀ d < 10, (Nat.digitChar d).toNat = 48 + d := by
  decide

theorem digitsVal_natDigits (n : Nat) : digitsVal (natDigits n) = n := by
  induction n using Nat.strong_induction_on with
  | _ n ih =>
    by_cases h : n < 10
    · rw [natDigits, dif_pos h]
      show (0 * 10 + ((Nat.digitChar n).toNat - 48)) = n
      rw [digitChar_toNat n h]
      omega
    · rw [natDigits, dif_neg h, digitsVal_append]
      have h10 : n / 10 < n := Nat.div_lt_self (by omega) (by omega)
      rw [ih (n / 10) h10, digitChar_toNat (n % 10) (Nat.mod_lt _ (by omega))]
      omega

theorem toDigitsCore_eq_natDigits :
    ∀ (fuel n : Nat) (ds : List Char), n < fuel →
      Nat.toDigitsCore 10 fuel n ds = natDigits n ++ ds := by
  intro fuel
  induction fuel with
  | zero => intro n ds h; omega
  | succ f ih =>
    intro n ds h
    have hstep : Nat.toDigitsCore 10 (f + 1) n ds =
        if n / 10 = 0 then Nat.digitChar (n % 10) :: ds
        else Nat.toDigitsCore 10 f (n / 10) (Nat.digitChar (n % 10) :: ds) := rfl
    rw [hstep]
    by_cases hz : n / 10 = 0
    · have hn10 : n < 10 := by omega
      rw [if_pos hz, natDigits, dif_pos hn10, Nat.mod_eq_of_lt hn10]
      rfl
    · have hge : ¬ n < 10 := fun hcon => hz (Nat.div_eq_of_lt hcon)
      have hpos : 0 < n := by
        by_contra hc
        have : n = 0 := by omega
        subst this
        exact hz rfl
      rw [if_neg hz, natDigits, dif_neg hge,
        ih (n / 10) _ (by omega)]
      simp

theorem natRepr_eq (n : Nat) : Nat.repr n = List.asString (natDigits n) := by
  show (Nat.toDigitsCore 10 (n + 1) n []).asString = _
  rw [toDigitsCore_eq_natDigits (n + 1) n [] (Nat.lt_succ_self n), List.append_nil]

theorem natRepr_injective {a b : Nat} (h : Nat.repr a = Nat.repr b) : a = b := by
  rw [natRepr_eq, natRepr_eq] at h
  have hd : natDigits a = natDigits b := congrArg String.data h
  have hv := digitsVal_natDigits a
  rw [hd, digitsVal_natDigits] at hv
  exact hv.symm

theorem candidateName_pos {base ext : String} {n : Nat} (h : n ≠ 0) :
    candidateName base ext n = base ++ "_" ++ Nat.repr n ++ ext := by
  unfold candidateName
  rw [if_neg h]

theorem string_append_data (a b : String) : (a ++ b).data = a.data ++ b.data := rfl

theorem candidateName_inj_pos {base ext : String} {n m : Nat}
    (hn : n ≠ 0) (hm : m ≠ 0)
    (h : candidateName base ext n = candidateName base ext m) : n = m := by
  rw [candidateName_pos hn, candidateName_pos hm] at h
  have h2 : ((base.data ++ "_".data) ++ (Nat.repr n).data) ++ ext.data =
      ((base.data ++ "_".data) ++ (Nat.repr m).data) ++ ext.data := by
    have := congrArg String.data h
    simpa [string_append_data, List.append_assoc] using this
  have h3 : (Nat.repr n).data = (Nat.repr m).data :=
    List.append_cancel_left (List.append_cancel_right h2)
  apply natRepr_injective
  calc Nat.repr n = String.mk (Nat.repr n).data := rfl
    _ = String.mk (Nat.repr m).data := by rw [h3]
    _ = Nat.repr m := rfl

theorem exists_fresh (dir : Finset String) (base ext : String) :
    ∃ n, candidateName base ext n ∉ dir := by
  by_contra hcon
  push_neg at hcon
  have hmaps : ∀ a ∈ Finset.range (dir.card + 1),
      candidateName base ext (a + 1) ∈ dir := fun a _ => hcon (a + 1)
  have hcard : dir.card < (Finset.range (dir.card + 1)).card := by simp
  obtain ⟨x, hx, y, hy, hxy, heq⟩ :=
    Finset.exists_ne_map_eq_of_card_lt_of_maps_to hcard hmaps
  exact hxy (by
    have := candidateName_inj_pos (Nat.succ_ne_zero x) (Nat.succ_ne_zero y) heq
    omega)

theorem findLoop_step (dir : Finset String) (base ext : String)
    (f counter : Nat) (cur : String) :
    findLoop dir base ext (f + 1) cur counter =
      if cur ∈ dir then
        findLoop dir base ext f (base ++ "_" ++ Nat.repr counter ++ ext) (counter + 1)
      else some cur := rfl

theorem findLoop_sound (dir : Finset String) (base ext : String) :
    ∀ (fuel k : Nat) (r : String),
      findLoop dir base ext fuel (candidateName base ext k) (k + 1) = some r →
      ∃ n, k ≤ n ∧ r = candidateName base ext n ∧ r ∉ dir ∧
        ∀ m, k ≤ m → m < n → candidateName base ext m ∈ dir := by
  intro fuel
  induction fuel with
  | zero => intro k r h; exact Option.noConfusion h
  | succ f ih =>
    intro k r h
    rw [findLoop_step] at h
    by_cases hmem : candidateName base ext k ∈ dir
    · rw [if_pos hmem] at h
      rw [← candidateName_pos (Nat.succ_ne_zero k)] at h
      obtain ⟨n, hkn, hr, hnot, hall⟩ := ih (k + 1) r h
      refine ⟨n, by omega, hr, hnot, ?_⟩
      intro m hm1 hm2
      rcases Nat.eq_or_lt_of_le hm1 with rfl | hlt
      · exact hmem
      · exact hall m (by omega) hm2
    · rw [if_neg hmem] at h
      have heq : candidateName base ext k = r := by simpa using h
      exact ⟨k, le_refl k, heq.symm, heq ▸ hmem,
        fun m hm1 hm2 => absurd (by omega : k < k) (lt_irrefl k)⟩

theorem findLoop_complete (dir : Finset String) (base ext : String) (n : Nat) :
    ∀ (fuel k : Nat), k ≤ n → n - k < fuel →
      candidateName base ext n ∉ dir →
      (∀ m, k ≤ m → m < n → candidateName base ext m ∈ dir) →
      findLoop dir base ext fuel (candidateName base ext k) (k + 1) =
        some (candidateName base ext n) := by
  intro fuel
  induction fuel with
  | zero => intro k _ h; omega
  | succ f ih =>
    intro k hkn hfuel hnot hall
    rw [findLoop_step]
    by_cases hmem : candidateName base ext k ∈ dir
    · rw [if_pos hmem]
      have hkltn : k < n := by
        rcases Nat.eq_or_lt_of_le hkn with rfl | h
        · exact absurd hmem hnot
        · exact h
      rw [← candidateName_pos (Nat.succ_ne_zero k)]
      exact ih (k + 1) (by omega) (by omega) hnot
        (fun m hm1 hm2 => hall m (by omega) hm2)
    · rw [if_neg hmem]
      have hk : k = n := by
        by_contra hne
        exact hmem (hall k (le_refl k) (by omega))
      rw [hk]

theorem candidateName_zero (base ext : String) :
    candidateName base ext 0 = base ++ ext := by
  unfold candidateName
  rw [if_pos rfl]

/-- Claim C9: with the directory modelled as the finite set of existing
    file names, the unbounded probing loop of `find_available_filename`
    terminates: some finite fuel makes the loop return a name (and the
    name it returns is stable for that fuel). -/
theorem find_available_terminates (dir : Finset String) (base ext : String) :
    ∃ fuel r, find_available_filename dir base ext fuel = some r := by
  have hex : ∃ n, candidateName base ext n ∉ dir := exists_fresh dir base ext
  refine ⟨Nat.find hex + 1, candidateName base ext (Nat.find hex), ?_⟩
  unfold find_available_filename
  rw [← candidateName_zero base ext]
  exact findLoop_complete dir base ext (Nat.find hex) (Nat.find hex + 1) 0
    (Nat.zero_le _) (by omega) (Nat.find_spec hex)
    (fun m _ hm2 => by
      have := Nat.find_min hex hm2
      by_contra hc
      exact this hc)

/-- Claim C2: whenever the probing loop returns a name, that name is the
    first of the sequence `base+ext`, `base_1+ext`, `base_2+ext`, ...
    that does not name an existing file — in particular it names no
    existing file; and concretely `resolve(dir, "report", ".pdf")`
    returns `report.pdf` when it is absent, `report_1.pdf` when
    `report.pdf` exists, and `report_2.pdf` when both exist. -/
theorem find_available_first_fit (dir : Finset String) (base ext : String) :
    (∀ fuel r, find_available_filename dir base ext fuel = some r →
      ∃ n, r = candidateName base ext n ∧ r ∉ dir ∧
        ∀ m < n, candidateName base ext m ∈ dir) ∧
    ("report.pdf" ∉ dir →
      find_available_filename dir "report" ".pdf" 1 = some "report.pdf") ∧
    ("report.pdf" ∈ dir → "report_1.pdf" ∉ dir →
      find_available_filename dir "report" ".pdf" 2 = some "report_1.pdf") ∧
    ("report.pdf" ∈ dir → "report_1.pdf" ∈ dir → "report_2.pdf" ∉ dir →
      find_available_filename dir "report" ".pdf" 3 = some "report_2.pdf") := by
  refine ⟨?_, ?_, ?_, ?_⟩
  · intro fuel r h
    unfold find_available_filename at h
    rw [← candidateName_zero base ext] at h
    obtain ⟨n, _, hr, hnot, hall⟩ := findLoop_sound dir base ext fuel 0 r h
    exact ⟨n, hr, hnot, fun m hm => hall m (Nat.zero_le m) hm⟩
  · intro h1
    unfold find_available_filename
    rw [findLoop_step, if_neg (by exact h1)]
    rfl
  · intro h1 h2
    unfold find_available_filename
    rw [findLoop_step, if_pos (by exact h1), findLoop_step,
      if_neg (by exact h2)]
    rfl
  · intro h1 h2 h3
    unfold find_available_filename
    rw [findLoop_step, if_pos (by exact h1), findLoop_step,
      if_pos (by exact h2), findLoop_step, if_neg (by exact h3)]
    rfl

/-- Claim C2 witness: with only `report.pdf` present, the loop resolves
    to `report_1.pdf`. -/
theorem find_available_first_fit_witness :
    find_available_filename {"report.pdf"} "report" ".pdf" 2 = some "report_1.pdf" :=
  (find_available_first_fit {"report.pdf"} "report" ".pdf").2.2.1
    (by decide) (by decide)

/-! ### Claims about the counting loop of `rename_pdfs_in_folder` -/

theorem foldl_countStep (files : List FileEntry) :
    ∀ a b : Nat, files.foldl countStep (a, b) =
      (a + files.countP (fun e => decide (fileOutcome e = Outcome.renamed)),
       b + files.countP (fun e =>
         decide (fileOutcome e = Outcome.renameFailed ∨
                 fileOutcome e = Outcome.noTitle))) := by
  induction files with
  | nil => intro a b; simp
  | cons e es ih =>
    intro a b
    rw [List.foldl_cons, List.countP_cons, List.countP_cons]
    cases ho : fileOutcome e <;>
      simp only [countStep, ho] <;>
      rw [ih] <;>
      simp <;> omega

theorem countP_outcomes (files : List FileEntry) :
    files.countP (fun e => decide (fileOutcome e = Outcome.renamed)) +
    files.countP (fun e =>
      decide (fileOutcome e = Outcome.renameFailed ∨
              fileOutcome e = Outcome.noTitle)) +
    files.countP (fun e =>
      decide (fileOutcome e = Outcome.skipUntitled ∨
              fileOutcome e = Outcome.skipEmpty ∨
              fileOutcome e = Outcome.skipNoChange)) = files.length := by
  induction files with
  | nil => simp
  | cons e es ih =>
    rw [List.countP_cons, List.countP_cons, List.countP_cons, List.length_cons]
    cases ho : fileOutcome e <;> simp [ho] at ih ⊢ <;> omega

/-- Claim C6 counterexample: a directory with one PDF whose sanitized
    title equals its current base name is skipped by `continue` and
    counted in neither counter, so the two counts sum to 0 while one
    file was processed. -/
theorem renameCounts_counterexample :
    fileOutcome ⟨"My Paper", ".pdf", .doc ⟨some "My Paper", []⟩, true⟩ =
      Outcome.skipNoChange ∧
    renameCounts [⟨"My Paper", ".pdf", .doc ⟨some "My Paper", []⟩, true⟩] = (0, 0) ∧
    [(⟨"My Paper", ".pdf", .doc ⟨some "My Paper", []⟩, true⟩ : FileEntry)].length = 1 := by
  refine ⟨by decide, by decide, rfl⟩

/-- Claim C6 (amended): every processed file receives exactly one
    outcome; `rename_count` counts exactly the successful renames and
    `fail_count` exactly the failed rename attempts plus the files with
    no extracted title, while the three `continue` skips (placeholder
    loop, empty sanitized title, unchanged name) are counted in neither,
    so the two counts plus the number of skipped files — not the two
    counts alone — equal the number of PDF files processed. -/
theorem renameCounts_partition (files : List FileEntry) :
    (renameCounts files).1 =
      files.countP (fun e => decide (fileOutcome e = Outcome.renamed)) ∧
    (renameCounts files).2 =
      files.countP (fun e =>
        decide (fileOutcome e = Outcome.renameFailed ∨
                fileOutcome e = Outcome.noTitle)) ∧
    (renameCounts files).1 + (renameCounts files).2 +
      files.countP (fun e =>
        decide (fileOutcome e = Outcome.skipUntitled ∨
                fileOutcome e = Outcome.skipEmpty ∨
                fileOutcome e = Outcome.skipNoChange)) = files.length := by
  have h := foldl_countStep files 0 0
  unfold renameCounts
  rw [h]
  refine ⟨by simp, by simp, ?_⟩
  simpa using countP_outcomes files
